import Mathlib

/-!
# Verification of the orcid-data-toolkit record-normalization pipeline

Shallow embedding of `src/lib.rs` of the `orcid-data-toolkit` repository:
the decoded `Record` data model, the pure normalizer `record_to_json`
(affiliation extraction for active employments, ROR/FUNDREF identifier
normalization, OrgMap lookup, two-pass affiliation deduplication, name
derivation), the batched conversion pipeline `convert_tgz` (JSON mode),
and the organization-identifier extraction mode (`collect_org_ids`,
`extract_tgz`).

Modelling conventions:
* Rust `String` is Lean `String`; `Option<T>` is `Option T`.
* `anyhow::Result` failures of `record_to_json` carry only a message and are
  used solely for control flow, so fallible functions return `Option`.
* `HashMap<ExtractedIdentifier, String>` (the `OrgMap`) is an insertion-ordered
  association list; `insert` appends and `get` takes the **last** matching
  binding, matching `HashMap::insert` overwrite semantics.
* `HashSet` iteration order is unspecified in Rust; where the code iterates a
  `HashSet` (in `extract_tgz`) the development quantifies over every possible
  enumeration order (any permutation of the set's elements).
* Unicode NFC normalization (`unicode_normalization` crate) is an external
  collaborator that the design document places out of scope; it is modelled as
  the identity on strings (`nfc`).
* The `regex` name filter is an external collaborator; it is modelled as an
  arbitrary predicate `String → Bool`.
-/

namespace OrcidToolkit

/-- `struct Identifier { uri, path }` — the record's canonical identifier. -/
structure Identifier where
  uri : String
  path : String
deriving DecidableEq, Repr

/-- `struct PersonName { given_names: Option<String>, family_name: Option<String> }`. -/
structure PersonName where
  given_names : Option String
  family_name : Option String
deriving DecidableEq, Repr

/-- `struct Person { name: PersonName }`. -/
structure Person where
  name : PersonName
deriving DecidableEq, Repr

/-- `struct OrgIdentifier { identifier, source }`. -/
structure OrgIdentifier where
  identifier : String
  source : String
deriving DecidableEq, Repr

/-- `struct Organization { name, identifier: Option<OrgIdentifier> }`. -/
structure Organization where
  name : String
  identifier : Option OrgIdentifier
deriving DecidableEq, Repr

/-- `struct Employment { end: Option<()>, organization }` — `end` present means
past employment. -/
structure Employment where
  «end» : Option Unit
  organization : Organization
deriving DecidableEq, Repr

/-- `struct AffiliationGroup { employment }`. -/
structure AffiliationGroup where
  employment : Employment
deriving DecidableEq, Repr

/-- `struct Employments { employment: Option<Vec<AffiliationGroup>> }`. -/
structure Employments where
  employment : Option (List AffiliationGroup)
deriving DecidableEq, Repr

/-- `struct Activities { employments }`. -/
structure Activities where
  employments : Employments
deriving DecidableEq, Repr

/-- `struct Record { identifier, person, activities }` — one decoded XML record. -/
structure Record where
  identifier : Identifier
  person : Person
  activities : Activities
deriving DecidableEq, Repr

/-- `struct NameIdentifier { scheme, identifier }` (output). -/
structure NameIdentifier where
  scheme : String
  identifier : String
deriving DecidableEq, Repr

/-- `struct NameAffiliation { id: Option<String>, name }` (output). -/
structure NameAffiliation where
  id : Option String
  name : String
deriving DecidableEq, Repr

/-- `struct NameJson { given_name, family_name, name, identifiers, affiliations }`
(output; `affiliations` is `None` when the list would be empty, mirroring
`skip_serializing_if`/`then_some`). -/
structure NameJson where
  given_name : String
  family_name : String
  name : String
  identifiers : List NameIdentifier
  affiliations : Option (List NameAffiliation)
deriving DecidableEq, Repr

/-- `struct ExtractedIdentifier { scheme, identifier }` — OrgMap key and unit of
the extraction mode. -/
structure ExtractedIdentifier where
  scheme : String
  identifier : String
deriving DecidableEq, Repr

/-- `type OrgMap = HashMap<ExtractedIdentifier, String>`, modelled as the
insertion-ordered list of bindings. -/
abbrev OrgMap := List (ExtractedIdentifier × String)

/-- `HashMap::get`: the last binding inserted for the key wins (later
`insert`s overwrite earlier ones). -/
def OrgMap.get (m : OrgMap) (k : ExtractedIdentifier) : Option String :=
  (m.reverse.find? (fun p => p.1 = k)).map (·.2)

/-- `read_org_ids`: build the OrgMap from the (header-less) rows of the
organization-mappings file, inserting each `(scheme, identifier) ↦ ror_id`
row in file order. -/
def read_org_ids (rows : List (String × String × String)) : OrgMap :=
  rows.map (fun r => (⟨r.1, r.2.1⟩, r.2.2))

/-- Unicode NFC normalization from the `unicode_normalization` crate: an
external collaborator, out of scope per the design document (§1), modelled as
the identity on strings. -/
def nfc (s : String) : String := s

/-- Rust `char::is_whitespace`: the Unicode `White_Space` property
(U+0009–U+000D, U+0020, U+0085, U+00A0, U+1680, U+2000–U+200A, U+2028,
U+2029, U+202F, U+205F, U+3000). -/
def rustIsWhitespace (c : Char) : Bool :=
  decide ((0x9 ≤ c.val ∧ c.val ≤ 0xD) ∨ c.val = 0x20 ∨ c.val = 0x85 ∨ c.val = 0xA0 ∨
    c.val = 0x1680 ∨ (0x2000 ≤ c.val ∧ c.val ≤ 0x200A) ∨ c.val = 0x2028 ∨
    c.val = 0x2029 ∨ c.val = 0x202F ∨ c.val = 0x205F ∨ c.val = 0x3000)

/-- Rust `str::trim`: remove leading and trailing Unicode whitespace. -/
def rustTrim (s : String) : String :=
  ⟨((s.data.dropWhile rustIsWhitespace).reverse.dropWhile rustIsWhitespace).reverse⟩

/-- Rust `name.trim().is_empty()`. -/
def trimIsEmpty (s : String) : Bool :=
  (rustTrim s).data.isEmpty

/-- Rust `str::rsplit_once(c)`: split at the **last** occurrence of `c`,
returning `(before, after)`, or `none` when `c` does not occur. -/
def rsplitOnce (s : String) (c : Char) : Option (String × String) :=
  if s.data.contains c then
    some (⟨((s.data.reverse.dropWhile (· ≠ c)).drop 1).reverse⟩,
          ⟨(s.data.reverse.takeWhile (· ≠ c)).reverse⟩)
  else
    none

/-- The body of the `filter_map` closure in `record_to_json`: an employment
with an end marker yields no affiliation; an active employment yields an
affiliation whose canonical id is the ROR trailing segment, or else the OrgMap
value found under the (scheme, normalized identifier) key. -/
def affiliationOf (org_map : OrgMap) (a : AffiliationGroup) : Option NameAffiliation :=
  match a.employment.«end» with
  | some _ => none
  | none =>
    let ror_id : Option String :=
      match a.employment.organization.identifier with
      | some identifier =>
        if identifier.source = "ROR" then
          (rsplitOnce identifier.identifier '/').map (·.2)
        else
          let normalized_id : Option String :=
            if identifier.source = "FUNDREF" then
              (rsplitOnce identifier.identifier '/').map (·.2)
            else
              some identifier.identifier
          normalized_id.bind (fun id =>
            OrgMap.get org_map ⟨identifier.source, id⟩)
      | none => none
    some ⟨ror_id, nfc a.employment.organization.name⟩

/-- The affiliation vector of `record_to_json` before deduplication: the
active employments of the record, in order. -/
def extractAffiliations (org_map : OrgMap) (r : Record) : List NameAffiliation :=
  (r.activities.employments.employment.getD []).filterMap (affiliationOf org_map)

/-- First `retain` pass of `record_to_json`, with `seen` the contents of the
`seen_ids` hash set: keep an affiliation if its `id` is absent or not yet
seen. -/
def dedupByIdGo (seen : List String) : List NameAffiliation → List NameAffiliation
  | [] => []
  | a :: rest =>
    match a.id with
    | some i => if i ∈ seen then dedupByIdGo seen rest else a :: dedupByIdGo (i :: seen) rest
    | none => a :: dedupByIdGo seen rest

/-- First `retain` pass: deduplicate affiliations by their `id`. -/
def dedupById (l : List NameAffiliation) : List NameAffiliation :=
  dedupByIdGo [] l

/-- Second `retain` pass, with `seen` the contents of the `seen_names` hash
set: keep every affiliation with an `id`; keep an id-less affiliation if its
`name` is not yet seen among id-less ones. -/
def dedupByNameGo (seen : List String) : List NameAffiliation → List NameAffiliation
  | [] => []
  | a :: rest =>
    if a.id.isSome then a :: dedupByNameGo seen rest
    else if a.name ∈ seen then dedupByNameGo seen rest
    else a :: dedupByNameGo (a.name :: seen) rest

/-- Second `retain` pass: deduplicate id-less affiliations by their `name`. -/
def dedupByName (l : List NameAffiliation) : List NameAffiliation :=
  dedupByNameGo [] l

/-- The deduplicated affiliation list of a record. -/
def normalizedAffiliations (org_map : OrgMap) (r : Record) : List NameAffiliation :=
  dedupByName (dedupById (extractAffiliations org_map r))

/-- The name-derivation `match` of `record_to_json`: returns
`(given_name, family_name, name)` or fails (`bail!`). -/
def deriveName (pn : PersonName) : Option (String × String × String) :=
  match pn.given_names, pn.family_name with
  | some name, none =>
    if ¬trimIsEmpty name then some ("", name, name) else none
  | none, some name =>
    if ¬trimIsEmpty name then some ("", name, name) else none
  | some given_names, some family_name =>
    if ¬trimIsEmpty given_names ∧ ¬trimIsEmpty family_name then
      some (given_names, family_name, family_name ++ ", " ++ given_names)
    else none
  | none, none => none

/-- `record_to_json` (lib.rs): normalize one record, or fail when no usable
name can be derived. -/
def record_to_json (record : Record) (org_map : OrgMap) : Option NameJson :=
  let affiliations := normalizedAffiliations org_map record
  match deriveName record.person.name with
  | none => none
  | some (given_name, family_name, name) =>
    some { given_name := nfc given_name
           family_name := nfc family_name
           name := nfc name
           identifiers := [⟨"orcid", record.identifier.path⟩]
           affiliations := if affiliations.isEmpty then none else some affiliations }

/-- The batching producer of `convert_tgz`: group the XML contents of the
archive's `.xml` entries into batches, flushing whenever the batch reaches
`n` items and sending any non-empty trailing partial batch (`BATCH_SIZE` is
256 in the source; the batch size is kept as a parameter to state
batch-size independence). -/
def toBatches (n : Nat) : List α → List (List α)
  | [] => []
  | x :: xs => (x :: xs.take (n - 1)) :: toBatches n (xs.drop (n - 1))
termination_by l => l.length
decreasing_by
  simp only [List.length_drop, List.length_cons]
  omega

/-- The per-batch body of `convert_tgz` in JSON mode: decode each document
(`parse_xml`, the external XML decoder, passed as `parse`), normalize it, and
apply the optional name filter; failing items are dropped. The surviving
`NameJson` values stand for the serialized lines written to the sink. -/
def processBatch (parse : String → Option Record) (org_map : OrgMap)
    (name_filter : Option (String → Bool)) (batch : List String) : List NameJson :=
  batch.filterMap (fun xml =>
    (parse xml).bind (fun record =>
      (record_to_json record org_map).bind (fun json =>
        match name_filter with
        | some re => if re json.name then some json else none
        | none => some json)))

/-- `convert_tgz` in JSON mode, as the function from the archive's XML entry
contents to the sequence of emitted normalized records: the producer batches
the entries, and each batch is decoded/normalized/filtered. -/
def convert_tgz_json (parse : String → Option Record) (org_map : OrgMap)
    (name_filter : Option (String → Bool)) (batch_size : Nat)
    (xmls : List String) : List NameJson :=
  (toBatches batch_size xmls).flatMap (processBatch parse org_map name_filter)

/-- `collect_org_ids`: the set of `{scheme, identifier}` pairs of all
employments of a record (active or not), represented as the
first-occurrence-deduplicated list of the extraction order. -/
def collect_org_ids (record : Record) : List ExtractedIdentifier :=
  ((record.activities.employments.employment.getD []).filterMap (fun a =>
    a.employment.organization.identifier.map (fun id =>
      ⟨id.source, id.identifier⟩))).dedup

/-- The emission loop of `extract_tgz` (OrgIDs mode), with `seen` the
contents of the `identifiers` hash set: for each record's identifier set —
iterated in some enumeration order `ids` — print the identifiers not already
seen, then add the whole set to `seen`. -/
def extractGo (seen : List ExtractedIdentifier) :
    List (List ExtractedIdentifier) → List ExtractedIdentifier
  | [] => []
  | ids :: rest => ids.filter (fun i => ¬i ∈ seen) ++ extractGo (seen ++ ids) rest

/-- `extract_tgz` (OrgIDs mode), as the sequence of emitted identifier lines:
`enums` lists, per record, the enumeration order in which the record's
`collect_org_ids` hash set is iterated (any permutation of it — hash-set
iteration order is unspecified). -/
def extract_tgz_run (enums : List (List ExtractedIdentifier)) : List ExtractedIdentifier :=
  extractGo [] enums

/-- The index of the first record of `records` whose identifier set contains
`x` (`records.length` when none does). -/
def firstSeenIdx (records : List Record) (x : ExtractedIdentifier) : Nat :=
  records.findIdx (fun r => decide (x ∈ collect_org_ids r))

/-! ## Properties of the two deduplication passes -/

theorem dedupByIdGo_sublist (seen : List String) (l : List NameAffiliation) :
    List.Sublist (dedupByIdGo seen l) l := by
  induction l generalizing seen with
  | nil => simp [dedupByIdGo]
  | cons a rest ih =>
    simp only [dedupByIdGo]
    cases ha : a.id with
    | none => exact (ih seen).cons₂ a
    | some i =>
      by_cases hi : i ∈ seen
      · simp only [if_pos hi]
        exact (ih seen).cons a
      · simp only [if_neg hi]
        exact (ih (i :: seen)).cons₂ a

theorem dedupByIdGo_ids_nodup (seen : List String) (l : List NameAffiliation) :
    ((dedupByIdGo seen l).filterMap (·.id)).Nodup ∧
      ∀ i ∈ (dedupByIdGo seen l).filterMap (·.id), i ∉ seen := by
  induction l generalizing seen with
  | nil => simp [dedupByIdGo]
  | cons a rest ih =>
    simp only [dedupByIdGo]
    cases ha : a.id with
    | none => simpa [ha] using ih seen
    | some i =>
      by_cases hi : i ∈ seen
      · simpa [hi] using ih seen
      · have ⟨h1, h2⟩ := ih (i :: seen)
        simp only [if_neg hi, List.filterMap_cons, ha, List.nodup_cons, List.mem_cons]
        refine ⟨⟨fun hmem => ?_, h1⟩, fun j hj => ?_⟩
        · exact (h2 i hmem) (List.mem_cons_self i seen)
        · rcases hj with hj | hj
          · exact hj ▸ hi
          · intro hjs
            exact (h2 j hj) (List.mem_cons_of_mem i hjs)

theorem dedupByIdGo_keeps_idless (seen : List String) (l : List NameAffiliation)
    (x : NameAffiliation) (hx : x ∈ l) (hid : x.id = none) :
    x ∈ dedupByIdGo seen l := by
  induction l generalizing seen with
  | nil => cases hx
  | cons a rest ih =>
    simp only [dedupByIdGo]
    rcases List.mem_cons.mp hx with rfl | hx'
    · simp [hid]
    · cases ha : a.id with
      | none => exact List.mem_cons_of_mem a (ih seen hx')
      | some i =>
        by_cases hi : i ∈ seen
        · simpa [hi] using ih seen hx'
        · simp only [if_neg hi]
          exact List.mem_cons_of_mem a (ih (i :: seen) hx')

theorem dedupByIdGo_keeps_first (seen : List String) (l : List NameAffiliation)
    (i : String) (y : NameAffiliation)
    (hf : l.find? (fun a => decide (a.id = some i)) = some y) (hi : i ∉ seen) :
    y ∈ dedupByIdGo seen l := by
  induction l generalizing seen with
  | nil => simp at hf
  | cons a rest ih =>
    simp only [dedupByIdGo]
    by_cases hai : a.id = some i
    · rw [List.find?_cons_of_pos _ (by simpa using hai)] at hf
      cases hf
      rw [hai]
      simp [hi]
    · rw [List.find?_cons_of_neg _ (by simpa using hai)] at hf
      cases ha : a.id with
      | none => exact List.mem_cons_of_mem a (ih seen hf hi)
      | some j =>
        by_cases hj : j ∈ seen
        · simpa [hj] using ih seen hf hi
        · simp only [if_neg hj]
          refine List.mem_cons_of_mem a (ih (j :: seen) hf ?_)
          intro hmem
          rcases List.mem_cons.mp hmem with rfl | hmem'
          · exact hai (ha ▸ rfl)
          · exact hi hmem'

theorem dedupByNameGo_sublist (seen : List String) (l : List NameAffiliation) :
    List.Sublist (dedupByNameGo seen l) l := by
  induction l generalizing seen with
  | nil => simp [dedupByNameGo]
  | cons a rest ih =>
    simp only [dedupByNameGo]
    by_cases hsome : a.id.isSome
    · simp only [if_pos hsome]
      exact (ih seen).cons₂ a
    · simp only [if_neg hsome]
      by_cases hn : a.name ∈ seen
      · simp only [if_pos hn]
        exact (ih seen).cons a
      · simp only [if_neg hn]
        exact (ih (a.name :: seen)).cons₂ a

theorem dedupByNameGo_keeps_id (seen : List String) (l : List NameAffiliation)
    (x : NameAffiliation) (hx : x ∈ l) (hid : x.id.isSome) :
    x ∈ dedupByNameGo seen l := by
  induction l generalizing seen with
  | nil => cases hx
  | cons a rest ih =>
    simp only [dedupByNameGo]
    rcases List.mem_cons.mp hx with rfl | hx'
    · simp [hid]
    · by_cases hsome : a.id.isSome
      · simp only [if_pos hsome]
        exact List.mem_cons_of_mem a (ih seen hx')
      · simp only [if_neg hsome]
        by_cases hn : a.name ∈ seen
        · simpa [hn] using ih seen hx'
        · simp only [if_neg hn]
          exact List.mem_cons_of_mem a (ih (a.name :: seen) hx')

theorem dedupByNameGo_filterMap_id (seen : List String) (l : List NameAffiliation) :
    (dedupByNameGo seen l).filterMap (·.id) = l.filterMap (·.id) := by
  induction l generalizing seen with
  | nil => simp [dedupByNameGo]
  | cons a rest ih =>
    simp only [dedupByNameGo]
    by_cases hsome : a.id.isSome
    · simp [if_pos hsome, List.filterMap_cons, ih seen]
    · have hnone : a.id = none := Option.not_isSome_iff_eq_none.mp hsome
      by_cases hn : a.name ∈ seen
      · simp [hsome, hn, List.filterMap_cons, hnone, ih seen]
      · simp [hsome, hn, List.filterMap_cons, hnone, ih (a.name :: seen)]

theorem dedupByNameGo_names_nodup (seen : List String) (l : List NameAffiliation) :
    (((dedupByNameGo seen l).filter (fun a => a.id.isNone)).map (·.name)).Nodup ∧
      ∀ n ∈ ((dedupByNameGo seen l).filter (fun a => a.id.isNone)).map (·.name),
        n ∉ seen := by
  induction l generalizing seen with
  | nil => simp [dedupByNameGo]
  | cons a rest ih =>
    simp only [dedupByNameGo]
    by_cases hsome : a.id.isSome
    · have : a.id.isNone = false := by
        cases h : a.id <;> simp_all
      simpa [List.filter_cons, hsome, this] using ih seen
    · have hnone : a.id.isNone = true := by
        cases h : a.id <;> simp_all
      by_cases hn : a.name ∈ seen
      · simpa [hsome, hn] using ih seen
      · have ⟨h1, h2⟩ := ih (a.name :: seen)
        simp only [if_neg hsome, if_neg hn, List.filter_cons, hnone, if_pos,
          List.map_cons, List.nodup_cons]
        refine ⟨⟨fun hmem => ?_, h1⟩, fun m hm => ?_⟩
        · exact (h2 a.name hmem) (List.mem_cons_self a.name seen)
        · rcases List.mem_cons.mp hm with rfl | hm'
          · exact hn
          · intro hms
            exact (h2 m hm') (List.mem_cons_of_mem _ hms)

/-! ## Shape of a successful normalization -/

theorem record_to_json_eq_some {r : Record} {m : OrgMap} {j : NameJson}
    (h : record_to_json r m = some j) :
    ∃ g f n, deriveName r.person.name = some (g, f, n) ∧
      j = { given_name := nfc g, family_name := nfc f, name := nfc n,
            identifiers := [⟨"orcid", r.identifier.path⟩],
            affiliations := if (normalizedAffiliations m r).isEmpty then none
                            else some (normalizedAffiliations m r) } := by
  simp only [record_to_json] at h
  cases hd : deriveName r.person.name with
  | none => rw [hd] at h; cases h
  | some t =>
    obtain ⟨g, f, n⟩ := t
    rw [hd] at h
    exact ⟨g, f, n, rfl, (Option.some.inj h).symm⟩

theorem affiliations_eq_normalized {r : Record} {m : OrgMap} {j : NameJson}
    (h : record_to_json r m = some j) {affs : List NameAffiliation}
    (ha : j.affiliations = some affs) : affs = normalizedAffiliations m r := by
  obtain ⟨g, f, n, -, rfl⟩ := record_to_json_eq_some h
  simp only at ha
  by_cases he : (normalizedAffiliations m r).isEmpty
  · rw [if_pos he] at ha; cases ha
  · rw [if_neg he] at ha; exact (Option.some.inj ha).symm

/-! ## Claim C3: affiliation deduplication invariants -/

/-- C3: for every record that normalizes successfully, the affiliation list
contains at most one entry per canonical organization id (the first
occurrence is kept), at most one id-less entry per distinct display name, no
entry derived from an employment carrying an end marker, and the surviving
entries appear in the relative order of their first occurrence in the
record's employment list (they form a sublist of the extraction order). -/
theorem c3_affiliation_dedup (r : Record) (m : OrgMap) (j : NameJson)
    (affs : List NameAffiliation) (h : record_to_json r m = some j)
    (ha : j.affiliations = some affs) :
    (affs.filterMap (·.id)).Nodup ∧
    ((affs.filter (fun a => a.id.isNone)).map (·.name)).Nodup ∧
    (∀ x ∈ affs, ∃ a ∈ r.activities.employments.employment.getD [],
        a.employment.«end» = none ∧ affiliationOf m a = some x) ∧
    List.Sublist affs (extractAffiliations m r) ∧
    (∀ i y, (extractAffiliations m r).find? (fun a => decide (a.id = some i)) = some y →
        y ∈ affs) := by
  obtain rfl := affiliations_eq_normalized h ha
  unfold normalizedAffiliations dedupById dedupByName
  refine ⟨?_, ?_, ?_, ?_, ?_⟩
  · rw [dedupByNameGo_filterMap_id]
    exact (dedupByIdGo_ids_nodup [] (extractAffiliations m r)).1
  · exact (dedupByNameGo_names_nodup [] (dedupByIdGo [] (extractAffiliations m r))).1
  · intro x hx
    have hx' : x ∈ extractAffiliations m r :=
      (dedupByIdGo_sublist [] _).subset ((dedupByNameGo_sublist [] _).subset hx)
    obtain ⟨a, haa, hfa⟩ := List.mem_filterMap.mp hx'
    refine ⟨a, haa, ?_, hfa⟩
    cases he : a.employment.«end» with
    | none => rfl
    | some u => rw [affiliationOf, he] at hfa; cases hfa
  · exact ((dedupByNameGo_sublist [] _).trans (dedupByIdGo_sublist [] _))
  · intro i y hf
    have hy : y.id = some i := by
      have := List.find?_some hf
      simpa using this
    refine dedupByNameGo_keeps_id [] _ y ?_ (by rw [hy]; rfl)
    exact dedupByIdGo_keeps_first [] _ i y hf (by simp)

/-- Witness for C3 at a concrete record: two active employments resolving to
the same ROR id collapse to the first, a past employment is dropped, and two
id-less employments with the same display name collapse to one. -/
theorem c3_affiliation_dedup_witness :
    (([⟨some "XX", "A"⟩, ⟨none, "D"⟩] : List NameAffiliation).filterMap (·.id)).Nodup ∧
    ((([⟨some "XX", "A"⟩, ⟨none, "D"⟩] : List NameAffiliation).filter
        (fun a => a.id.isNone)).map (·.name)).Nodup ∧
    (∀ x ∈ ([⟨some "XX", "A"⟩, ⟨none, "D"⟩] : List NameAffiliation),
      ∃ a ∈ (Record.mk ⟨"u", "0000-0003-0000-0003"⟩ ⟨⟨some "G", some "F"⟩⟩
          ⟨⟨some [⟨⟨none, ⟨"A", some ⟨"https://ror.org/XX", "ROR"⟩⟩⟩⟩,
                  ⟨⟨none, ⟨"B", some ⟨"https://ror.org/XX", "ROR"⟩⟩⟩⟩,
                  ⟨⟨some (), ⟨"C", some ⟨"https://ror.org/YY", "ROR"⟩⟩⟩⟩,
                  ⟨⟨none, ⟨"D", (none : Option OrgIdentifier)⟩⟩⟩,
                  ⟨⟨none, ⟨"D", (none : Option OrgIdentifier)⟩⟩⟩]⟩⟩).activities.employments.employment.getD [],
        a.employment.«end» = none ∧ affiliationOf [] a = some x) ∧
    List.Sublist ([⟨some "XX", "A"⟩, ⟨none, "D"⟩] : List NameAffiliation)
      (extractAffiliations [] (Record.mk ⟨"u", "0000-0003-0000-0003"⟩ ⟨⟨some "G", some "F"⟩⟩
          ⟨⟨some [⟨⟨none, ⟨"A", some ⟨"https://ror.org/XX", "ROR"⟩⟩⟩⟩,
                  ⟨⟨none, ⟨"B", some ⟨"https://ror.org/XX", "ROR"⟩⟩⟩⟩,
                  ⟨⟨some (), ⟨"C", some ⟨"https://ror.org/YY", "ROR"⟩⟩⟩⟩,
                  ⟨⟨none, ⟨"D", (none : Option OrgIdentifier)⟩⟩⟩,
                  ⟨⟨none, ⟨"D", (none : Option OrgIdentifier)⟩⟩⟩]⟩⟩)) ∧
    (∀ i y, (extractAffiliations [] (Record.mk ⟨"u", "0000-0003-0000-0003"⟩ ⟨⟨some "G", some "F"⟩⟩
          ⟨⟨some [⟨⟨none, ⟨"A", some ⟨"https://ror.org/XX", "ROR"⟩⟩⟩⟩,
                  ⟨⟨none, ⟨"B", some ⟨"https://ror.org/XX", "ROR"⟩⟩⟩⟩,
                  ⟨⟨some (), ⟨"C", some ⟨"https://ror.org/YY", "ROR"⟩⟩⟩⟩,
                  ⟨⟨none, ⟨"D", (none : Option OrgIdentifier)⟩⟩⟩,
                  ⟨⟨none, ⟨"D", (none : Option OrgIdentifier)⟩⟩⟩]⟩⟩)).find?
        (fun a => decide (a.id = some i)) = some y →
        y ∈ ([⟨some "XX", "A"⟩, ⟨none, "D"⟩] : List NameAffiliation)) :=
  c3_affiliation_dedup
    (Record.mk ⟨"u", "0000-0003-0000-0003"⟩ ⟨⟨some "G", some "F"⟩⟩
          ⟨⟨some [⟨⟨none, ⟨"A", some ⟨"https://ror.org/XX", "ROR"⟩⟩⟩⟩,
                  ⟨⟨none, ⟨"B", some ⟨"https://ror.org/XX", "ROR"⟩⟩⟩⟩,
                  ⟨⟨some (), ⟨"C", some ⟨"https://ror.org/YY", "ROR"⟩⟩⟩⟩,
                  ⟨⟨none, ⟨"D", (none : Option OrgIdentifier)⟩⟩⟩,
                  ⟨⟨none, ⟨"D", (none : Option OrgIdentifier)⟩⟩⟩]⟩⟩) []
    ⟨"G", "F", "F, G", [⟨"orcid", "0000-0003-0000-0003"⟩],
      some [⟨some "XX", "A"⟩, ⟨none, "D"⟩]⟩
    [⟨some "XX", "A"⟩, ⟨none, "D"⟩] (by decide) rfl

/-! ## Claim C8: identifiers and affiliation presence -/

/-- C8: every successful normalization result carries exactly one identifier
entry, with scheme "orcid" and the record's canonical path, and its
affiliations field is present if and only if the deduplicated affiliation
list is non-empty (in which case it is that list). -/
theorem c8_identifiers_and_affiliations_presence (r : Record) (m : OrgMap)
    (j : NameJson) (h : record_to_json r m = some j) :
    j.identifiers = [⟨"orcid", r.identifier.path⟩] ∧
    ((∃ l, j.affiliations = some l) ↔ normalizedAffiliations m r ≠ []) ∧
    (∀ l, j.affiliations = some l → l = normalizedAffiliations m r) := by
  obtain ⟨g, f, n, hd, rfl⟩ := record_to_json_eq_some h
  refine ⟨rfl, ?_, fun l hl => affiliations_eq_normalized h hl⟩
  by_cases he : (normalizedAffiliations m r).isEmpty
  · simp only [if_pos he]
    simp [List.isEmpty_iff.mp he]
  · simp only [if_neg he]
    simp only [List.isEmpty_iff] at he
    simp [he]

/-- Witness for C8 at a concrete record with one active ROR employment. -/
theorem c8_identifiers_and_affiliations_presence_witness :
    (NameJson.mk "G" "F" "F, G" [⟨"orcid", "0000-0004-0000-0004"⟩]
        (some [⟨some "ZZ", "Org"⟩])).identifiers = [⟨"orcid", "0000-0004-0000-0004"⟩] ∧
    ((∃ l, (NameJson.mk "G" "F" "F, G" [⟨"orcid", "0000-0004-0000-0004"⟩]
        (some [⟨some "ZZ", "Org"⟩])).affiliations = some l) ↔
      normalizedAffiliations [] (Record.mk ⟨"u", "0000-0004-0000-0004"⟩
        ⟨⟨some "G", some "F"⟩⟩
        ⟨⟨some [⟨⟨none, ⟨"Org", some ⟨"https://ror.org/ZZ", "ROR"⟩⟩⟩⟩]⟩⟩) ≠ []) ∧
    (∀ l, (NameJson.mk "G" "F" "F, G" [⟨"orcid", "0000-0004-0000-0004"⟩]
        (some [⟨some "ZZ", "Org"⟩])).affiliations = some l →
      l = normalizedAffiliations [] (Record.mk ⟨"u", "0000-0004-0000-0004"⟩
        ⟨⟨some "G", some "F"⟩⟩
        ⟨⟨some [⟨⟨none, ⟨"Org", some ⟨"https://ror.org/ZZ", "ROR"⟩⟩⟩⟩]⟩⟩)) :=
  c8_identifiers_and_affiliations_presence
    (Record.mk ⟨"u", "0000-0004-0000-0004"⟩ ⟨⟨some "G", some "F"⟩⟩
      ⟨⟨some [⟨⟨none, ⟨"Org", some ⟨"https://ror.org/ZZ", "ROR"⟩⟩⟩⟩]⟩⟩) []
    (NameJson.mk "G" "F" "F, G" [⟨"orcid", "0000-0004-0000-0004"⟩]
      (some [⟨some "ZZ", "Org"⟩])) (by decide)

/-! ## Claim C10: extraction includes past employments -/

/-- C10: `collect_org_ids` collects the (scheme, identifier) pair of **every**
employment carrying one, regardless of whether the employment has an end
marker (past employments are included). -/
theorem c10_collect_includes_past (r : Record) (a : AffiliationGroup)
    (ha : a ∈ r.activities.employments.employment.getD [])
    (oid : OrgIdentifier) (hid : a.employment.organization.identifier = some oid) :
    (⟨oid.source, oid.identifier⟩ : ExtractedIdentifier) ∈ collect_org_ids r := by
  unfold collect_org_ids
  rw [List.mem_dedup]
  exact List.mem_filterMap.mpr ⟨a, ha, by rw [hid]; rfl⟩

/-- Witness for C10: a past employment (end marker present) still contributes
its identifier to the extraction. -/
theorem c10_collect_includes_past_witness :
    (⟨"RINGGOLD", "9999"⟩ : ExtractedIdentifier) ∈ collect_org_ids
      (Record.mk ⟨"u", "p"⟩ ⟨⟨some "G", some "F"⟩⟩
        ⟨⟨some [⟨⟨some (), ⟨"Past Org", some ⟨"9999", "RINGGOLD"⟩⟩⟩⟩]⟩⟩) :=
  c10_collect_includes_past
    (Record.mk ⟨"u", "p"⟩ ⟨⟨some "G", some "F"⟩⟩
      ⟨⟨some [⟨⟨some (), ⟨"Past Org", some ⟨"9999", "RINGGOLD"⟩⟩⟩⟩]⟩⟩)
    ⟨⟨some (), ⟨"Past Org", some ⟨"9999", "RINGGOLD"⟩⟩⟩⟩ (by decide)
    ⟨"9999", "RINGGOLD"⟩ rfl

/-! ## Claim C4: name derivation -/

/-- C4: when exactly one of given-name/family-name is present and non-empty
after trimming, normalization succeeds with `name == family_name ==` that
value and `given_name == ""`; when both are present and non-empty after
trimming, given/family are used verbatim and `name == "{family}, {given}"`. -/
theorem c4_name_derivation (r : Record) (m : OrgMap) :
    (∀ v, (r.person.name = ⟨some v, none⟩ ∨ r.person.name = ⟨none, some v⟩) →
        trimIsEmpty v = false →
        ∃ j, record_to_json r m = some j ∧
          j.given_name = "" ∧ j.family_name = v ∧ j.name = v) ∧
    (∀ g f, r.person.name = ⟨some g, some f⟩ →
        trimIsEmpty g = false → trimIsEmpty f = false →
        ∃ j, record_to_json r m = some j ∧
          j.given_name = g ∧ j.family_name = f ∧ j.name = f ++ ", " ++ g) := by
  constructor
  · rintro v (h | h) hv
    all_goals
      have hd : deriveName r.person.name = some ("", v, v) := by
        rw [h]; simp [deriveName, hv]
      refine ⟨{ given_name := "", family_name := v, name := v,
                identifiers := [⟨"orcid", r.identifier.path⟩],
                affiliations := if (normalizedAffiliations m r).isEmpty then none
                                else some (normalizedAffiliations m r) },
              ?_, rfl, rfl, rfl⟩
      simp only [record_to_json, hd]
      rfl
  · intro g f h hg hf
    have hd : deriveName r.person.name = some (g, f, f ++ ", " ++ g) := by
      rw [h]; simp [deriveName, hg, hf]
    refine ⟨{ given_name := g, family_name := f, name := f ++ ", " ++ g,
              identifiers := [⟨"orcid", r.identifier.path⟩],
              affiliations := if (normalizedAffiliations m r).isEmpty then none
                              else some (normalizedAffiliations m r) },
            ?_, rfl, rfl, rfl⟩
    simp only [record_to_json, hd]
    rfl

/-- Witness for C4: a family-name-only record and a both-names record. -/
theorem c4_name_derivation_witness :
    (∃ j, record_to_json
        (Record.mk ⟨"u", "p"⟩ ⟨⟨none, some "Curie"⟩⟩ ⟨⟨none⟩⟩) [] = some j ∧
      j.given_name = "" ∧ j.family_name = "Curie" ∧ j.name = "Curie") ∧
    (∃ j, record_to_json
        (Record.mk ⟨"u", "p"⟩ ⟨⟨some "Marie", some "Curie"⟩⟩ ⟨⟨none⟩⟩) [] = some j ∧
      j.given_name = "Marie" ∧ j.family_name = "Curie" ∧ j.name = "Curie, Marie") :=
  ⟨(c4_name_derivation (Record.mk ⟨"u", "p"⟩ ⟨⟨none, some "Curie"⟩⟩ ⟨⟨none⟩⟩) []).1
      "Curie" (Or.inr rfl) (by decide),
   (c4_name_derivation (Record.mk ⟨"u", "p"⟩ ⟨⟨some "Marie", some "Curie"⟩⟩ ⟨⟨none⟩⟩) []).2
      "Marie" "Curie" rfl (by decide) (by decide)⟩

/-! ## Claim C9: end-to-end scenario -/

/-- C9: the record with canonical path `0000-0002-5082-6404`, given name
"Alex", family name "Ioannidis", and one active employment at an organization
carrying the ROR identifier URL `https://ror.org/01ggx4157` normalizes to
name "Ioannidis, Alex", the single orcid identifier, and the affiliation
`{id: "01ggx4157", name: organization display name}`. -/
theorem c9_scenario_ioannidis :
    record_to_json
      (Record.mk ⟨"https://orcid.org/0000-0002-5082-6404", "0000-0002-5082-6404"⟩
        ⟨⟨some "Alex", some "Ioannidis"⟩⟩
        ⟨⟨some [⟨⟨none, ⟨"European Organization for Nuclear Research",
          some ⟨"https://ror.org/01ggx4157", "ROR"⟩⟩⟩⟩]⟩⟩) [] =
    some (NameJson.mk "Alex" "Ioannidis" "Ioannidis, Alex"
      [⟨"orcid", "0000-0002-5082-6404"⟩]
      (some [⟨some "01ggx4157", "European Organization for Nuclear Research"⟩])) := by
  decide

/-! ## Batching transparency -/

theorem toBatches_flatMap_id (n : Nat) (l : List α) :
    (toBatches n l).flatMap id = l := by
  induction l using toBatches.induct n with
  | case1 => simp [toBatches]
  | case2 x xs ih =>
    simp only [toBatches, List.flatMap_cons, id]
    rw [ih]
    simp [List.take_append_drop]

theorem flatMap_filterMap_eq (chunks : List (List α)) (f : α → Option β) :
    chunks.flatMap (fun b => b.filterMap f) = (chunks.flatMap id).filterMap f := by
  induction chunks with
  | nil => simp
  | cons b bs ih => simp [List.filterMap_append, ih]

/-- The batched pipeline equals the unbatched per-item pipeline, for every
batch size. -/
theorem convert_tgz_json_eq_processBatch (parse : String → Option Record)
    (org_map : OrgMap) (name_filter : Option (String → Bool)) (n : Nat)
    (xmls : List String) :
    convert_tgz_json parse org_map name_filter n xmls =
      processBatch parse org_map name_filter xmls := by
  unfold convert_tgz_json processBatch
  rw [flatMap_filterMap_eq, toBatches_flatMap_id]

/-! ## Claim C7: batch-size independence -/

/-- C7: for every archive content, OrgMap and name filter, any two batch
sizes ≥ 1 produce the same sequence of successfully normalized,
filter-passing records (sequence equality, which subsumes the claim's
set equality). -/
theorem c7_batch_size_independence (parse : String → Option Record)
    (org_map : OrgMap) (name_filter : Option (String → Bool))
    (b₁ b₂ : Nat) (h₁ : 1 ≤ b₁) (h₂ : 1 ≤ b₂) (xmls : List String) :
    convert_tgz_json parse org_map name_filter b₁ xmls =
      convert_tgz_json parse org_map name_filter b₂ xmls := by
  rw [convert_tgz_json_eq_processBatch, convert_tgz_json_eq_processBatch]

/-- Witness for C7 at batch sizes 1 and 2 over a three-entry archive. -/
theorem c7_batch_size_independence_witness :
    convert_tgz_json (fun s => if s = "good" then
        some (Record.mk ⟨"u", "p"⟩ ⟨⟨some "G", some "F"⟩⟩ ⟨⟨none⟩⟩) else none)
      [] none 1 ["good", "bad", "good"] =
    convert_tgz_json (fun s => if s = "good" then
        some (Record.mk ⟨"u", "p"⟩ ⟨⟨some "G", some "F"⟩⟩ ⟨⟨none⟩⟩) else none)
      [] none 2 ["good", "bad", "good"] :=
  c7_batch_size_independence _ [] none 1 2 (by decide) (by decide) _

/-! ## Claim C5: records without a usable name are skipped, the run continues -/

/-- C5: when neither name-derivation case applies (both names absent, or the
single present name is empty after trimming, or one of two present names is
empty after trimming), normalization fails for that record, and the run's
output over an archive containing that record equals the output over the
archive without it (the record is excluded; the run continues and the other
records are unaffected). -/
theorem c5_unusable_name_skipped (r : Record) (m : OrgMap)
    (h : (r.person.name.given_names = none ∧ r.person.name.family_name = none) ∨
         (∃ v, (r.person.name = ⟨some v, none⟩ ∨ r.person.name = ⟨none, some v⟩) ∧
           trimIsEmpty v = true) ∨
         (∃ g f, r.person.name = ⟨some g, some f⟩ ∧
           (trimIsEmpty g = true ∨ trimIsEmpty f = true))) :
    record_to_json r m = none ∧
    ∀ (parse : String → Option Record) (name_filter : Option (String → Bool))
      (b : Nat) (xs ys : List String) (badxml : String),
      parse badxml = some r →
      convert_tgz_json parse m name_filter b (xs ++ badxml :: ys) =
        convert_tgz_json parse m name_filter b (xs ++ ys) := by
  have hd : deriveName r.person.name = none := by
    rcases h with ⟨h1, h2⟩ | ⟨v, h1 | h1, h2⟩ | ⟨g, f, h1, h2 | h2⟩
    · cases hpn : r.person.name with
      | mk gn fn =>
        rw [hpn] at h1 h2; simp only at h1 h2
        subst h1; subst h2; rfl
    · rw [h1]; simp [deriveName, h2]
    · rw [h1]; simp [deriveName, h2]
    · rw [h1]; simp [deriveName, h2]
    · rw [h1]; simp [deriveName, h2]
  have hr : record_to_json r m = none := by
    simp only [record_to_json, hd]
  refine ⟨hr, fun parse name_filter b xs ys badxml hparse => ?_⟩
  rw [convert_tgz_json_eq_processBatch, convert_tgz_json_eq_processBatch]
  unfold processBatch
  rw [List.filterMap_append, List.filterMap_append, List.filterMap_cons]
  rw [hparse]
  simp [hr]

/-- Witness for C5: a record with both names absent is skipped while another
record still converts, at batch size 1. -/
theorem c5_unusable_name_skipped_witness :
    record_to_json (Record.mk ⟨"u", "p"⟩ ⟨⟨none, none⟩⟩ ⟨⟨none⟩⟩) [] = none ∧
    convert_tgz_json (fun _ => some (Record.mk ⟨"u", "p"⟩ ⟨⟨none, none⟩⟩ ⟨⟨none⟩⟩))
        [] none 1 (["a"] ++ "bad" :: ["b"]) =
      convert_tgz_json (fun _ => some (Record.mk ⟨"u", "p"⟩ ⟨⟨none, none⟩⟩ ⟨⟨none⟩⟩))
        [] none 1 (["a"] ++ ["b"]) :=
  ⟨(c5_unusable_name_skipped (Record.mk ⟨"u", "p"⟩ ⟨⟨none, none⟩⟩ ⟨⟨none⟩⟩) []
      (Or.inl ⟨rfl, rfl⟩)).1,
   (c5_unusable_name_skipped (Record.mk ⟨"u", "p"⟩ ⟨⟨none, none⟩⟩ ⟨⟨none⟩⟩) []
      (Or.inl ⟨rfl, rfl⟩)).2
     (fun _ => some (Record.mk ⟨"u", "p"⟩ ⟨⟨none, none⟩⟩ ⟨⟨none⟩⟩))
     none 1 ["a"] ["b"] "bad" rfl⟩

/-! ## Claim C6: extraction-mode deduplicated emission -/

theorem pairwise_of_forall_mem {α : Type _} {l : List α} {R : α → α → Prop}
    (h : ∀ x ∈ l, ∀ y ∈ l, R x y) : l.Pairwise R := by
  induction l with
  | nil => exact List.Pairwise.nil
  | cons a t ih =>
    exact List.Pairwise.cons (fun y hy => h a (by simp) y (by simp [hy]))
      (ih fun x hx y hy => h x (by simp [hx]) y (by simp [hy]))

theorem collect_org_ids_nodup (r : Record) : (collect_org_ids r).Nodup :=
  List.nodup_dedup _

theorem firstSeenIdx_cons_zero {r₀ : Record} {rs : List Record}
    {x : ExtractedIdentifier} (h : x ∈ collect_org_ids r₀) :
    firstSeenIdx (r₀ :: rs) x = 0 := by
  simp [firstSeenIdx, List.findIdx_cons, h]

theorem firstSeenIdx_cons_succ {r₀ : Record} {rs : List Record}
    {x : ExtractedIdentifier} (h : x ∉ collect_org_ids r₀) :
    firstSeenIdx (r₀ :: rs) x = firstSeenIdx rs x + 1 := by
  simp [firstSeenIdx, List.findIdx_cons, h]

theorem extractGo_mem {enums : List (List ExtractedIdentifier)} {records : List Record}
    (h : List.Forall₂ (fun e r => e.Perm (collect_org_ids r)) enums records)
    (seen : List ExtractedIdentifier) (x : ExtractedIdentifier) :
    x ∈ extractGo seen enums ↔
      x ∉ seen ∧ ∃ r ∈ records, x ∈ collect_org_ids r := by
  induction h generalizing seen with
  | nil => simp [extractGo]
  | @cons e r₀ es rs hp hrest ih =>
    simp only [extractGo, List.mem_append, List.mem_filter]
    constructor
    · rintro (⟨hxe, hxs⟩ | hx)
      · exact ⟨by simpa using hxs, r₀, List.mem_cons_self r₀ rs, hp.mem_iff.mp hxe⟩
      · obtain ⟨hns, r', hr', hxr⟩ := (ih (seen ++ e)).mp hx
        rw [List.mem_append] at hns
        push_neg at hns
        exact ⟨hns.1, r', List.mem_cons_of_mem r₀ hr', hxr⟩
    · rintro ⟨hns, r', hr', hxr⟩
      rcases List.mem_cons.mp hr' with rfl | hr''
      · exact Or.inl ⟨hp.mem_iff.mpr hxr, by simpa using hns⟩
      · by_cases hxe : x ∈ e
        · exact Or.inl ⟨hxe, by simpa using hns⟩
        · refine Or.inr ((ih (seen ++ e)).mpr ⟨?_, r', hr'', hxr⟩)
          rw [List.mem_append]
          push_neg
          exact ⟨hns, hxe⟩

theorem extractGo_nodup {enums : List (List ExtractedIdentifier)} {records : List Record}
    (h : List.Forall₂ (fun e r => e.Perm (collect_org_ids r)) enums records)
    (seen : List ExtractedIdentifier) : (extractGo seen enums).Nodup := by
  induction h generalizing seen with
  | nil => simp [extractGo]
  | @cons e r₀ es rs hp hrest ih =>
    simp only [extractGo]
    rw [List.nodup_append]
    refine ⟨List.Nodup.filter _ (hp.nodup_iff.mpr (collect_org_ids_nodup r₀)),
      ih (seen ++ e), ?_⟩
    rw [List.disjoint_left]
    intro x hx hx'
    have hxe : x ∈ e := List.mem_of_mem_filter hx
    have := ((extractGo_mem hrest (seen ++ e) x).mp hx').1
    exact this (List.mem_append.mpr (Or.inr hxe))

theorem extractGo_pairwise_firstSeen {enums : List (List ExtractedIdentifier)}
    {records : List Record}
    (h : List.Forall₂ (fun e r => e.Perm (collect_org_ids r)) enums records)
    (seen : List ExtractedIdentifier) :
    (extractGo seen enums).Pairwise
      (fun x y => firstSeenIdx records x ≤ firstSeenIdx records y) := by
  induction h generalizing seen with
  | nil => simp [extractGo]
  | @cons e r₀ es rs hp hrest ih =>
    simp only [extractGo]
    have h0 : ∀ x ∈ e.filter (fun i => ¬i ∈ seen), firstSeenIdx (r₀ :: rs) x = 0 :=
      fun x hx => firstSeenIdx_cons_zero (hp.mem_iff.mp (List.mem_of_mem_filter hx))
    have hrestmem : ∀ x ∈ extractGo (seen ++ e) es, x ∉ collect_org_ids r₀ := by
      intro x hx hc
      exact ((extractGo_mem hrest (seen ++ e) x).mp hx).1
        (List.mem_append.mpr (Or.inr (hp.mem_iff.mpr hc)))
    rw [List.pairwise_append]
    refine ⟨pairwise_of_forall_mem fun x hx y hy => ?_,
      (ih (seen ++ e)).imp_of_mem fun {a b} ha hb hab => ?_, fun x hx y hy => ?_⟩
    · rw [h0 x hx]; exact Nat.zero_le _
    · rw [firstSeenIdx_cons_succ (hrestmem a ha), firstSeenIdx_cons_succ (hrestmem b hb)]
      exact Nat.succ_le_succ hab
    · rw [h0 x hx]; exact Nat.zero_le _

/-- C6: in extraction mode, whatever order the per-record identifier hash
sets are iterated in (`enums` is any per-record permutation of
`collect_org_ids`), the emitted lines are exactly the distinct identifiers
encountered across all records, each emitted exactly once (no duplicates),
and emission order follows first-seen order: an identifier first seen in an
earlier record is never emitted after one first seen in a later record. -/
theorem c6_extraction_distinct_first_seen (records : List Record)
    (enums : List (List ExtractedIdentifier))
    (h : List.Forall₂ (fun e r => e.Perm (collect_org_ids r)) enums records) :
    (extract_tgz_run enums).Nodup ∧
    (∀ x, x ∈ extract_tgz_run enums ↔ ∃ r ∈ records, x ∈ collect_org_ids r) ∧
    (extract_tgz_run enums).Pairwise
      (fun x y => firstSeenIdx records x ≤ firstSeenIdx records y) :=
  ⟨extractGo_nodup h [],
   fun x => by simpa using extractGo_mem h [] x,
   extractGo_pairwise_firstSeen h []⟩

/-- Witness for C6: two records sharing an identifier; the shared identifier
is emitted only once, at its first-seen position. -/
theorem c6_extraction_distinct_first_seen_witness :
    (extract_tgz_run [[⟨"ROR", "A"⟩, ⟨"ROR", "B"⟩], [⟨"ROR", "B"⟩, ⟨"ROR", "C"⟩]]).Nodup ∧
    (∀ x, x ∈ extract_tgz_run [[⟨"ROR", "A"⟩, ⟨"ROR", "B"⟩], [⟨"ROR", "B"⟩, ⟨"ROR", "C"⟩]] ↔
      ∃ r ∈ [Record.mk ⟨"u", "p1"⟩ ⟨⟨some "G", some "F"⟩⟩
          ⟨⟨some [⟨⟨none, ⟨"O1", some ⟨"A", "ROR"⟩⟩⟩⟩, ⟨⟨none, ⟨"O2", some ⟨"B", "ROR"⟩⟩⟩⟩]⟩⟩,
         Record.mk ⟨"u", "p2"⟩ ⟨⟨some "G", some "F"⟩⟩
          ⟨⟨some [⟨⟨none, ⟨"O3", some ⟨"B", "ROR"⟩⟩⟩⟩, ⟨⟨none, ⟨"O4", some ⟨"C", "ROR"⟩⟩⟩⟩]⟩⟩],
        x ∈ collect_org_ids r) ∧
    (extract_tgz_run [[⟨"ROR", "A"⟩, ⟨"ROR", "B"⟩], [⟨"ROR", "B"⟩, ⟨"ROR", "C"⟩]]).Pairwise
      (fun x y =>
        firstSeenIdx [Record.mk ⟨"u", "p1"⟩ ⟨⟨some "G", some "F"⟩⟩
          ⟨⟨some [⟨⟨none, ⟨"O1", some ⟨"A", "ROR"⟩⟩⟩⟩, ⟨⟨none, ⟨"O2", some ⟨"B", "ROR"⟩⟩⟩⟩]⟩⟩,
         Record.mk ⟨"u", "p2"⟩ ⟨⟨some "G", some "F"⟩⟩
          ⟨⟨some [⟨⟨none, ⟨"O3", some ⟨"B", "ROR"⟩⟩⟩⟩, ⟨⟨none, ⟨"O4", some ⟨"C", "ROR"⟩⟩⟩⟩]⟩⟩] x ≤
        firstSeenIdx [Record.mk ⟨"u", "p1"⟩ ⟨⟨some "G", some "F"⟩⟩
          ⟨⟨some [⟨⟨none, ⟨"O1", some ⟨"A", "ROR"⟩⟩⟩⟩, ⟨⟨none, ⟨"O2", some ⟨"B", "ROR"⟩⟩⟩⟩]⟩⟩,
         Record.mk ⟨"u", "p2"⟩ ⟨⟨some "G", some "F"⟩⟩
          ⟨⟨some [⟨⟨none, ⟨"O3", some ⟨"B", "ROR"⟩⟩⟩⟩, ⟨⟨none, ⟨"O4", some ⟨"C", "ROR"⟩⟩⟩⟩]⟩⟩] y) :=
  c6_extraction_distinct_first_seen
    [Record.mk ⟨"u", "p1"⟩ ⟨⟨some "G", some "F"⟩⟩
      ⟨⟨some [⟨⟨none, ⟨"O1", some ⟨"A", "ROR"⟩⟩⟩⟩, ⟨⟨none, ⟨"O2", some ⟨"B", "ROR"⟩⟩⟩⟩]⟩⟩,
     Record.mk ⟨"u", "p2"⟩ ⟨⟨some "G", some "F"⟩⟩
      ⟨⟨some [⟨⟨none, ⟨"O3", some ⟨"B", "ROR"⟩⟩⟩⟩, ⟨⟨none, ⟨"O4", some ⟨"C", "ROR"⟩⟩⟩⟩]⟩⟩]
    [[⟨"ROR", "A"⟩, ⟨"ROR", "B"⟩], [⟨"ROR", "B"⟩, ⟨"ROR", "C"⟩]]
    (List.Forall₂.cons (by decide) (List.Forall₂.cons (by decide) List.Forall₂.nil))

/-! ## Claim C1: FUNDREF mapping-file resolution -/

/-- Counterexample to C1 as stated: with the organization-mapping row
`("FUNDREF", "10.13039/501100001665", "01234abc")` loaded verbatim, a record
with an active FUNDREF employment whose identifier ends in
`/501100001665` normalizes with **no** canonical organization id — the
lookup key is the trailing segment `"501100001665"`, which never matches the
verbatim stored key `"10.13039/501100001665"`. -/
theorem c1_counterexample :
    record_to_json
      (Record.mk ⟨"u", "0000-0001-0000-0001"⟩ ⟨⟨some "A", some "B"⟩⟩
        ⟨⟨some [⟨⟨none, ⟨"Org",
          some ⟨"http://dx.doi.org/10.13039/501100001665", "FUNDREF"⟩⟩⟩⟩]⟩⟩)
      (read_org_ids [("FUNDREF", "10.13039/501100001665", "01234abc")]) =
    some (NameJson.mk "A" "B" "B, A" [⟨"orcid", "0000-0001-0000-0001"⟩]
      (some [⟨none, "Org"⟩])) := by
  decide

/-- C1 as amended: the FUNDREF OrgMap lookup key is the trailing segment of
the identifier, so resolution to `"01234abc"` succeeds exactly when the
mapping stores `"01234abc"` under the key `("FUNDREF", "501100001665")`
(i.e. the mapping row's identifier column is the trailing segment, not the
full value): every record with an active FUNDREF employment whose identifier
has trailing segment `501100001665` then yields an affiliation with
canonical id `"01234abc"`. -/
theorem c1_amended_fundref_normalized_key (r : Record) (m : OrgMap)
    (a : AffiliationGroup) (ha : a ∈ r.activities.employments.employment.getD [])
    (hend : a.employment.«end» = none) (oid : OrgIdentifier)
    (hid : a.employment.organization.identifier = some oid)
    (hsrc : oid.source = "FUNDREF")
    (hseg : (rsplitOnce oid.identifier '/').map (·.2) = some "501100001665")
    (hmap : OrgMap.get m ⟨"FUNDREF", "501100001665"⟩ = some "01234abc")
    (j : NameJson) (hj : record_to_json r m = some j) :
    ∃ affs, j.affiliations = some affs ∧ ∃ x ∈ affs, x.id = some "01234abc" := by
  have hx : affiliationOf m a =
      some ⟨some "01234abc", nfc a.employment.organization.name⟩ := by
    unfold affiliationOf
    rw [hend, hid]
    simp only [hsrc, hseg, hmap]
    rw [if_neg (by decide : ¬("FUNDREF" = "ROR"))]
    simp [hmap]
  have hmem : (⟨some "01234abc", nfc a.employment.organization.name⟩ :
      NameAffiliation) ∈ extractAffiliations m r :=
    List.mem_filterMap.mpr ⟨a, ha, hx⟩
  have hfind : ((extractAffiliations m r).find?
      (fun b => decide (b.id = some "01234abc"))).isSome :=
    List.find?_isSome.mpr ⟨_, hmem, by simp⟩
  obtain ⟨y, hy⟩ := Option.isSome_iff_exists.mp hfind
  have hyid : y.id = some "01234abc" := by simpa using List.find?_some hy
  have hymem : y ∈ normalizedAffiliations m r := by
    unfold normalizedAffiliations dedupByName dedupById
    exact dedupByNameGo_keeps_id [] _ y
      (dedupByIdGo_keeps_first [] _ "01234abc" y hy (by simp))
      (by rw [hyid]; rfl)
  obtain ⟨g, f, n, hd, rfl⟩ := record_to_json_eq_some hj
  have hne : (normalizedAffiliations m r).isEmpty = false := by
    cases hl : normalizedAffiliations m r with
    | nil => rw [hl] at hymem; cases hymem
    | cons _ _ => rfl
  refine ⟨normalizedAffiliations m r, ?_, y, hymem, hyid⟩
  simp [hne]

/-- Witness for the amended C1: with the mapping row keyed by the trailing
segment, the canonical id `"01234abc"` is resolved. -/
theorem c1_amended_fundref_normalized_key_witness :
    ∃ affs, (NameJson.mk "A" "B" "B, A" [⟨"orcid", "0000-0001-0000-0001"⟩]
      (some [⟨some "01234abc", "Org"⟩])).affiliations = some affs ∧
      ∃ x ∈ affs, x.id = some "01234abc" :=
  c1_amended_fundref_normalized_key
    (Record.mk ⟨"u", "0000-0001-0000-0001"⟩ ⟨⟨some "A", some "B"⟩⟩
      ⟨⟨some [⟨⟨none, ⟨"Org",
        some ⟨"http://dx.doi.org/10.13039/501100001665", "FUNDREF"⟩⟩⟩⟩]⟩⟩)
    (read_org_ids [("FUNDREF", "501100001665", "01234abc")])
    ⟨⟨none, ⟨"Org", some ⟨"http://dx.doi.org/10.13039/501100001665", "FUNDREF"⟩⟩⟩⟩
    (by decide) rfl
    ⟨"http://dx.doi.org/10.13039/501100001665", "FUNDREF"⟩ rfl rfl
    (by decide) (by decide)
    (NameJson.mk "A" "B" "B, A" [⟨"orcid", "0000-0001-0000-0001"⟩]
      (some [⟨some "01234abc", "Org"⟩]))
    (by decide)

/-! ## Claim C2: identifiers without a `/` -/

/-- Counterexample to C2 as stated: an active ROR employment whose
identifier `"01ggx4157"` has no `/` yields an affiliation with **no**
canonical id (not the raw value), and an active FUNDREF employment whose
identifier `"X"` has no `/` yields no canonical id even though the OrgMap
maps the raw key `("FUNDREF", "X")` — the raw value is not used as the
lookup key; `rsplit_once` returns `None` and the whole lookup is skipped. -/
theorem c2_counterexample :
    record_to_json
      (Record.mk ⟨"u", "p1"⟩ ⟨⟨some "A", some "B"⟩⟩
        ⟨⟨some [⟨⟨none, ⟨"Org", some ⟨"01ggx4157", "ROR"⟩⟩⟩⟩]⟩⟩) [] =
      some (NameJson.mk "A" "B" "B, A" [⟨"orcid", "p1"⟩] (some [⟨none, "Org"⟩])) ∧
    record_to_json
      (Record.mk ⟨"u", "p2"⟩ ⟨⟨some "A", some "B"⟩⟩
        ⟨⟨some [⟨⟨none, ⟨"Org", some ⟨"X", "FUNDREF"⟩⟩⟩⟩]⟩⟩)
      (read_org_ids [("FUNDREF", "X", "mapped")]) =
      some (NameJson.mk "A" "B" "B, A" [⟨"orcid", "p2"⟩] (some [⟨none, "Org"⟩])) := by
  constructor
  · decide
  · decide

/-- C2 as amended: for an active employment whose organization identifier
contains no `/`, normalization does not fail — an affiliation with the
organization's display name is still produced — but for schemes "ROR" and
"FUNDREF" the affiliation carries **no** canonical id (`rsplit_once`
returns `None`, so for FUNDREF the OrgMap is never consulted). -/
theorem c2_amended_no_slash_no_id (m : OrgMap) (a : AffiliationGroup)
    (hend : a.employment.«end» = none) (oid : OrgIdentifier)
    (hid : a.employment.organization.identifier = some oid)
    (hslash : oid.identifier.data.contains '/' = false)
    (hsrc : oid.source = "ROR" ∨ oid.source = "FUNDREF") :
    affiliationOf m a = some ⟨none, nfc a.employment.organization.name⟩ := by
  have hnone : rsplitOnce oid.identifier '/' = none := by
    unfold rsplitOnce
    rw [hslash]
    rfl
  unfold affiliationOf
  rw [hend, hid]
  rcases hsrc with h | h
  · simp [h, hnone]
  · simp only [h, hnone]
    rw [if_neg (by decide : ¬("FUNDREF" = "ROR"))]
    simp

/-- Witness for the amended C2: a slash-less ROR identifier produces an
id-less affiliation, and so does a slash-less FUNDREF identifier even when
the OrgMap holds the raw key. -/
theorem c2_amended_no_slash_no_id_witness :
    affiliationOf [] ⟨⟨none, ⟨"Org", some ⟨"01ggx4157", "ROR"⟩⟩⟩⟩ =
      some ⟨none, nfc "Org"⟩ ∧
    affiliationOf (read_org_ids [("FUNDREF", "X", "mapped")])
        ⟨⟨none, ⟨"Org", some ⟨"X", "FUNDREF"⟩⟩⟩⟩ =
      some ⟨none, nfc "Org"⟩ :=
  ⟨c2_amended_no_slash_no_id [] ⟨⟨none, ⟨"Org", some ⟨"01ggx4157", "ROR"⟩⟩⟩⟩
      rfl ⟨"01ggx4157", "ROR"⟩ rfl (by decide) (Or.inl rfl),
   c2_amended_no_slash_no_id (read_org_ids [("FUNDREF", "X", "mapped")])
      ⟨⟨none, ⟨"Org", some ⟨"X", "FUNDREF"⟩⟩⟩⟩
      rfl ⟨"X", "FUNDREF"⟩ rfl (by decide) (Or.inr rfl)⟩

end OrcidToolkit
